import Mathlib

/-!
Shallow embedding of the review-session logic of the legaleagle-ai repository.

The embedded code comes from:
* `src/components/ReviewInterface.tsx` — `handleAcceptRisk`, `handleIgnoreRisk`,
  `navigateRisk`, `renderDocumentContent`, `handleAnalyze`;
* `src/services/geminiService.ts` — `analyzeContractRisks`;
* `src/types.ts` (recovered as `src/unnamed/part_001`) — `RiskLevel`, `RiskPoint`.

Strings are modelled as `List Char`.  The JavaScript string primitives the code
relies on (`String.prototype.replace` with a string pattern — including the
ECMAScript `GetSubstitution` treatment of `$`-patterns in the replacement —
and `String.prototype.split` with a string separator) are embedded first.
-/

set_option maxHeartbeats 1000000

namespace LegalEagle

/-! ### JavaScript string primitives -/

/-- Distinguished characters used by ECMAScript `GetSubstitution`. -/
def chDollar : Char := '$'

def chAmp : Char := '&'

def chBackquote : Char := Char.ofNat 96

def chQuote : Char := Char.ofNat 39

/-- True when `pat` is an initial segment of `s` (a match of `pat` at the
current position). -/
def startsWith : List Char → List Char → Bool
  | [], _ => true
  | _ :: _, [] => false
  | p :: ps, c :: cs => p = c && startsWith ps cs

/-- Index of the leftmost occurrence of `pat` in `s`, as JavaScript
`String.prototype.indexOf` finds it (`some 0` for the empty pattern). -/
def firstMatchIdx (pat : List Char) : List Char → Option Nat
  | [] => if startsWith pat [] then some 0 else none
  | c :: rest =>
    if startsWith pat (c :: rest) then some 0
    else (firstMatchIdx pat rest).map (· + 1)

/-- ECMAScript `GetSubstitution` for a string search (no capture groups):
in the replacement text, `$$` yields `$`, `$&` the matched text, a
dollar-backquote the text before the match, a dollar-quote the text after the
match; every other character, including a lone `$`, is literal. -/
def substDollar (matched before after : List Char) : List Char → List Char
  | [] => []
  | [c] => [c]
  | c1 :: c2 :: rest =>
    if c1 = chDollar then
      if c2 = chDollar then chDollar :: substDollar matched before after rest
      else if c2 = chAmp then matched ++ substDollar matched before after rest
      else if c2 = chBackquote then before ++ substDollar matched before after rest
      else if c2 = chQuote then after ++ substDollar matched before after rest
      else c1 :: substDollar matched before after (c2 :: rest)
    else c1 :: substDollar matched before after (c2 :: rest)
  termination_by l => l.length

/-- JavaScript `s.replace(search, repl)` with string arguments: replaces the
leftmost occurrence of `search`, passing `repl` through `GetSubstitution`. -/
def jsReplace (s search repl : List Char) : List Char :=
  match firstMatchIdx search s with
  | none => s
  | some i =>
    s.take i ++ substDollar search (s.take i) (s.drop (i + search.length)) repl
      ++ s.drop (i + search.length)

/-- Matching an initial segment needs at least as many characters. -/
theorem startsWith_length_le :
    ∀ {pat s : List Char}, startsWith pat s = true → pat.length ≤ s.length
  | [], _, _ => Nat.zero_le _
  | _ :: _, [], h => by simp [startsWith] at h
  | p :: ps, c :: cs, h => by
    simp only [startsWith, Bool.and_eq_true] at h
    simpa [List.length_cons] using Nat.succ_le_succ (startsWith_length_le h.2)

/-- Core of JavaScript `String.prototype.split` for a nonempty string
separator: pieces between leftmost non-overlapping occurrences of `sep`. -/
def jsSplitCore (sep : List Char) (s : List Char) : List (List Char) :=
  if h : sep ≠ [] ∧ startsWith sep s then
    [] :: jsSplitCore sep (s.drop sep.length)
  else
    match s with
    | [] => [[]]
    | c :: rest =>
      match jsSplitCore sep rest with
      | [] => [[c]]
      | p :: ps => (c :: p) :: ps
  termination_by s.length
  decreasing_by
    · have hle : sep.length ≤ s.length := startsWith_length_le h.2
      have hpos : 0 < sep.length := List.length_pos.mpr h.1
      simp only [List.length_drop]
      omega
    · simp [List.length_cons]

/-- JavaScript `s.split(sep)` with a string separator: the empty separator
splits into single characters, otherwise `jsSplitCore`. -/
def jsSplit (sep s : List Char) : List (List Char) :=
  if sep = [] then s.map (fun c => [c]) else jsSplitCore sep s

/-! ### Data model (`src/types.ts`) -/

/-- `RiskLevel` enum from `src/types.ts`. -/
inductive RiskLevel
  | HIGH
  | MEDIUM
  | LOW
deriving DecidableEq

/-- `RiskPoint` interface from `src/types.ts`. -/
structure RiskPoint where
  id : List Char
  originalText : List Char
  riskDescription : List Char
  reason : List Char
  level : RiskLevel
  suggestedText : List Char
  isAddressed : Bool
deriving DecidableEq

/-- The component state of `ReviewInterface` relevant to the session reducer:
`currentText`, `risks` and `selectedRiskId`. -/
structure ReviewState where
  currentText : List Char
  risks : List RiskPoint
  selectedRiskId : Option (List Char)
deriving DecidableEq

/-! ### Session operations (`src/components/ReviewInterface.tsx`) -/

/-- `handleAcceptRisk` from `ReviewInterface.tsx`: replace the first occurrence
of the risk's original text via JavaScript `replace`, mark the risk addressed,
and clear the selection (both branches of the trailing `if` set it to `null`). -/
def handleAcceptRisk (st : ReviewState) (risk : RiskPoint) : ReviewState :=
  let newText := jsReplace st.currentText risk.originalText risk.suggestedText
  let newRisks := st.risks.map
    (fun r => if r.id = risk.id then { r with isAddressed := true } else r)
  let remaining := st.risks.filter (fun r => !r.isAddressed && r.id ≠ risk.id)
  { currentText := newText
    risks := newRisks
    selectedRiskId := if remaining.length > 0 then none else none }

/-- `handleIgnoreRisk` from `ReviewInterface.tsx`: mark the risk addressed
without touching the document text, and clear the selection. -/
def handleIgnoreRisk (st : ReviewState) (riskId : List Char) : ReviewState :=
  { st with
    risks := st.risks.map
      (fun r => if r.id = riskId then { r with isAddressed := true } else r)
    selectedRiskId := none }

/-- Accepting a finding by id, as the UI does: the drawer passes
`selectedRisk`, which is `risks.find(r => r.id === selectedRiskId)`, to
`handleAcceptRisk`; with no matching finding nothing happens. -/
def acceptFinding (st : ReviewState) (riskId : List Char) : ReviewState :=
  match st.risks.find? (fun r => r.id = riskId) with
  | some risk => handleAcceptRisk st risk
  | none => st

/-- The two resolution operations of a session, keyed by finding id. -/
inductive SessionOp
  | accept (riskId : List Char)
  | ignore (riskId : List Char)

def applyOp (st : ReviewState) : SessionOp → ReviewState
  | .accept riskId => acceptFinding st riskId
  | .ignore riskId => handleIgnoreRisk st riskId

def applyOps (st : ReviewState) : List SessionOp → ReviewState
  | [] => st
  | op :: ops => applyOps (applyOp st op) ops

/-- Direction argument of `navigateRisk`. -/
inductive NavDirection
  | next
  | prev
deriving DecidableEq

/-- `navigateRisk` from `ReviewInterface.tsx`.  Index arithmetic is done on
`Int`, mirroring JavaScript: `findIndex` yields `-1` when the selected id is
not among the unresolved risks (in particular when nothing is selected), and
the two wrap-around corrections are applied in source order. -/
def navigateRisk (st : ReviewState) (direction : NavDirection) : ReviewState :=
  let activeRisks := st.risks.filter (fun r => !r.isAddressed)
  match st.selectedRiskId with
  | none => st
  | some sel =>
    match activeRisks.findIdx? (fun r => r.id = sel) with
    | none => st
    | some currentIndex =>
      let i1 : Int := match direction with
        | .next => (currentIndex : Int) + 1
        | .prev => (currentIndex : Int) - 1
      let i2 : Int := if i1 ≥ (activeRisks.length : Int) then 0 else i1
      let i3 : Int := if i2 < 0 then (activeRisks.length : Int) - 1 else i2
      match activeRisks[i3.toNat]? with
      | some r => { st with selectedRiskId := some r.id }
      | none => st

/-! ### Document rendering (`renderDocumentContent`) -/

/-- One fragment produced by `renderDocumentContent`: a piece of text,
optionally attributed to a risk (`riskId`, `level`). -/
structure Fragment where
  text : List Char
  riskId : Option (List Char)
  level : Option RiskLevel
deriving DecidableEq

/-- The inner loop of a splitting pass: JavaScript pushes `split[i]` as a plain
fragment and, between consecutive pieces, a fragment carrying the risk's
original text, id and level. -/
def interleaveRisk (risk : RiskPoint) : List (List Char) → List Fragment
  | [] => []
  | [p] => [⟨p, none, none⟩]
  | p :: q :: ps =>
    ⟨p, none, none⟩ :: ⟨risk.originalText, some risk.id, some risk.level⟩ ::
      interleaveRisk risk (q :: ps)

/-- One pass of `renderDocumentContent` over one fragment: fragments already
attributed to a risk are kept whole; a plain fragment is split on the risk's
original text when that yields more than one piece. -/
def riskSplitPass (risk : RiskPoint) (part : Fragment) : List Fragment :=
  if part.riskId.isSome then [part]
  else
    let split := jsSplit risk.originalText part.text
    if split.length > 1 then interleaveRisk risk split
    else [part]

/-- The fragment computation of `renderDocumentContent`: starting from the
whole document as one plain fragment, each unresolved risk, in list order,
rewrites the fragment list. -/
def renderDocumentParts (st : ReviewState) : List Fragment :=
  (st.risks.filter (fun r => !r.isAddressed)).foldl
    (fun parts risk => parts.flatMap (riskSplitPass risk))
    [⟨st.currentText, none, none⟩]

/-! ### Analysis service (`src/services/geminiService.ts`) -/

/-- One element of the JSON array returned by the model, as constrained by the
response schema in `analyzeContractRisks`. -/
structure RawRisk where
  originalText : List Char
  riskDescription : List Char
  reason : List Char
  level : RiskLevel
  suggestedText : List Char
deriving DecidableEq

def digitChar (n : Nat) : Char := Char.ofNat (48 + n)

/-- Decimal rendering of a natural number, as JavaScript template-literal
interpolation renders `index` and `Date.now()`. -/
def natToChars (n : Nat) : List Char :=
  if h : n < 10 then [digitChar n]
  else natToChars (n / 10) ++ [digitChar (n % 10)]
  termination_by n
  decreasing_by
    have : 10 ≤ n := Nat.le_of_not_lt h
    exact Nat.div_lt_self (by omega) (by omega)

/-- The template literal `risk-${index}-${Date.now()}`. -/
def riskIdChars (index now : Nat) : List Char :=
  "risk-".toList ++ natToChars index ++ "-".toList ++ natToChars now

/-- The per-element body of `rawRisks.map((r, index) => ({...r, id, isAddressed: false}))`. -/
def toRiskPoint (now index : Nat) (r : RawRisk) : RiskPoint :=
  { id := riskIdChars index now
    originalText := r.originalText
    riskDescription := r.riskDescription
    reason := r.reason
    level := r.level
    suggestedText := r.suggestedText
    isAddressed := false }

/-- Indexed map over the raw risks, starting at `index`. -/
def mapRisksFrom (now index : Nat) : List RawRisk → List RiskPoint
  | [] => []
  | r :: rs => toRiskPoint now index r :: mapRisksFrom now (index + 1) rs

/-- `analyzeContractRisks` from `geminiService.ts`.  The whole body sits in a
`try`-block whose `catch` returns `[]`, so any failure of the external call or
of JSON parsing (`Except.error`) produces the empty list; the function itself
never throws. -/
def analyzeContractRisks (now : Nat) (response : Except Unit (List RawRisk)) :
    List RiskPoint :=
  match response with
  | .error _ => []
  | .ok rawRisks => mapRisksFrom now 0 rawRisks

/-- `handleAnalyze` from `ReviewInterface.tsx`, abstracted over the outcome of
the awaited service call: on a value, the finding list is replaced and no
alert is raised (`false`); on a thrown error, state is untouched and the
failure alert is raised (`true`).  Document text and selection are never
modified. -/
def handleAnalyze (st : ReviewState) (serviceResult : Except Unit (List RiskPoint)) :
    ReviewState × Bool :=
  match serviceResult with
  | .ok identifiedRisks => ({ st with risks := identifiedRisks }, false)
  | .error _ => (st, true)

/-- The composed analysis pipeline: `handleAnalyze` awaiting
`analyzeContractRisks`.  Since the service catches internally and returns a
value in every case, its result always reaches `handleAnalyze` as `Except.ok`. -/
def requestAnalysis (st : ReviewState) (now : Nat)
    (response : Except Unit (List RawRisk)) : ReviewState × Bool :=
  handleAnalyze st (.ok (analyzeContractRisks now response))


/-! ### Spec-side definitions used only to state claims -/

/-- Placeholder finding for `List.getD` in statements about where
`navigateRisk` moves the selection (never returned when the index is in
bounds). -/
def defaultRisk : RiskPoint := ⟨[], [], [], [], .HIGH, [], false⟩

/-- The wrap-around step of the claim: `next` advances by one in list order,
wrapping from the last index to `0`; `prev` steps back by one, wrapping from
`0` to the last index. -/
def wrapIndex (direction : NavDirection) (i len : Nat) : Nat :=
  match direction with
  | .next => if i + 1 ≥ len then 0 else i + 1
  | .prev => if i = 0 then len - 1 else i - 1

/-- Pieces re-joined with the separator between them (what JavaScript `split`
discards). -/
def joinSep (sep : List Char) : List (List Char) → List Char
  | [] => []
  | [p] => p
  | p :: q :: ps => p ++ sep ++ joinSep sep (q :: ps)

/-- Number of leftmost non-overlapping occurrences of `sep` in `s` — the
occurrences JavaScript `split` separates on (meaningful for nonempty `sep`). -/
def countOcc (sep : List Char) (s : List Char) : Nat :=
  if h : sep ≠ [] ∧ startsWith sep s then countOcc sep (s.drop sep.length) + 1
  else
    match s with
    | [] => 0
    | _ :: rest => countOcc sep rest
  termination_by s.length
  decreasing_by
    · have hle : sep.length ≤ s.length := startsWith_length_le h.2
      have hpos : 0 < sep.length := List.length_pos.mpr h.1
      simp only [List.length_drop]
      omega
    · simp [List.length_cons]

/-- True when the replacement text contains an active ECMAScript substitution
pattern for a string search: a dollar immediately followed by a dollar, an
ampersand, a backquote or a quote. -/
def hasSubstPat : List Char → Bool
  | [] => false
  | [_] => false
  | c1 :: c2 :: rest =>
    if c1 = chDollar ∧
        (c2 = chDollar ∨ c2 = chAmp ∨ c2 = chBackquote ∨ c2 = chQuote) then true
    else hasSubstPat (c2 :: rest)
  termination_by l => l.length

/-- Value of a digit string read back as a decimal number. -/
def readDec (cs : List Char) : Nat :=
  cs.foldl (fun a c => 10 * a + (c.toNat - 48)) 0

/-! ### Concrete instances used by counterexamples and witnesses -/

def cexAnalyzeRisk : RiskPoint :=
  ⟨"r0".toList, "x".toList, [], [], .HIGH, "y".toList, false⟩
def cexAnalyzeState : ReviewState := ⟨"doc".toList, [cexAnalyzeRisk], none⟩
def cexTwiceRisk : RiskPoint :=
  ⟨"r1".toList, "a".toList, [], [], .HIGH, "b".toList, false⟩
def cexTwiceState : ReviewState := ⟨"aa".toList, [cexTwiceRisk], none⟩
def witMonoState : ReviewState :=
  ⟨"pay now".toList,
    [⟨"a1".toList, "now".toList, [], [], .MEDIUM, "later".toList, false⟩,
     ⟨"a2".toList, "pay".toList, [], [], .LOW, "send".toList, true⟩], none⟩
def witAbsentRisk : RiskPoint :=
  ⟨"r9".toList, "xy".toList, [], [], .LOW, "Z".toList, false⟩
def witAbsentState : ReviewState := ⟨"abc".toList, [witAbsentRisk], none⟩

def witOverlapA : RiskPoint := ⟨"ra".toList, "ab".toList, [], [], .HIGH, "x".toList, false⟩

def witOverlapB : RiskPoint := ⟨"rb".toList, "bc".toList, [], [], .LOW, "y".toList, false⟩

def witOverlapState : ReviewState := ⟨"abc".toList, [witOverlapA], none⟩

def witOverlapFrag : Fragment := ⟨"ab".toList, some ("ra".toList), some .HIGH⟩

def witNavState : ReviewState :=
  ⟨"t".toList,
    [⟨"n1".toList, "p".toList, [], [], .HIGH, "q".toList, false⟩,
     ⟨"n2".toList, "t".toList, [], [], .LOW, "u".toList, false⟩],
    some ("n2".toList)⟩

def witStaleState : ReviewState :=
  ⟨"t".toList, [⟨"s1".toList, "p".toList, [], [], .HIGH, "q".toList, true⟩],
    some ("s1".toList)⟩

def witFeeRisk : RiskPoint :=
  ⟨"rf".toList, "$100".toList, [], [], .HIGH, "$200".toList, false⟩

def witFeeFrag : Fragment := ⟨"Fee: $100. Late fee: $100.".toList, none, none⟩

def cexDollarRisk : RiskPoint :=
  ⟨"rd".toList, "b".toList, [], [], .HIGH, "$&$&".toList, false⟩

def cexDollarState : ReviewState := ⟨"ab".toList, [cexDollarRisk], none⟩

def witFeeState : ReviewState :=
  ⟨"Fee: $100. Late fee: $100.".toList, [witFeeRisk], none⟩

def witRawA : RawRisk := ⟨"a".toList, [], [], .LOW, "b".toList⟩

def witRawB : RawRisk := ⟨"c".toList, [], [], .MEDIUM, "d".toList⟩

def witRawState : ReviewState := ⟨"ac".toList, [], none⟩

/-! ### Shared lemmas -/

/-- Monotone correspondence between a finding and its later version: the id is
preserved and the resolved flag can only go from `false` to `true`. -/
def RiskMono (r r' : RiskPoint) : Prop :=
  r'.id = r.id ∧ (r.isAddressed = true → r'.isAddressed = true)

theorem riskMono_trans {a b c : RiskPoint} (h1 : RiskMono a b) (h2 : RiskMono b c) :
    RiskMono a c :=
  ⟨h2.1.trans h1.1, fun h => h2.2 (h1.2 h)⟩

theorem forall2_riskMono_refl : ∀ l : List RiskPoint, List.Forall₂ RiskMono l l
  | [] => List.Forall₂.nil
  | _ :: rs => List.Forall₂.cons ⟨rfl, id⟩ (forall2_riskMono_refl rs)

theorem forall2_riskMono_map (f : RiskPoint → RiskPoint) (hf : ∀ r, RiskMono r (f r)) :
    ∀ l : List RiskPoint, List.Forall₂ RiskMono l (l.map f)
  | [] => List.Forall₂.nil
  | r :: rs => List.Forall₂.cons (hf r) (forall2_riskMono_map f hf rs)

theorem forall2_riskMono_trans :
    ∀ {a b c : List RiskPoint}, List.Forall₂ RiskMono a b → List.Forall₂ RiskMono b c →
      List.Forall₂ RiskMono a c := by
  intro a b c h1 h2
  induction h1 generalizing c with
  | nil => cases h2; exact List.Forall₂.nil
  | cons hr _ ih =>
    cases h2 with
    | cons hr2 ht2 => exact List.Forall₂.cons (riskMono_trans hr hr2) (ih ht2)

/-- The flag-raising map used by both `handleAcceptRisk` and
`handleIgnoreRisk` is monotone on each finding. -/
theorem markAddressed_mono (riskId : List Char) (r : RiskPoint) :
    RiskMono r (if r.id = riskId then { r with isAddressed := true } else r) := by
  by_cases h : r.id = riskId <;> simp [h, RiskMono]

theorem applyOp_mono (st : ReviewState) (op : SessionOp) :
    List.Forall₂ RiskMono st.risks (applyOp st op).risks := by
  cases op with
  | accept riskId =>
    show List.Forall₂ RiskMono st.risks (acceptFinding st riskId).risks
    unfold acceptFinding
    cases h : st.risks.find? (fun r => r.id = riskId) with
    | none => exact forall2_riskMono_refl st.risks
    | some risk =>
      exact forall2_riskMono_map _ (markAddressed_mono risk.id) st.risks
  | ignore riskId =>
    exact forall2_riskMono_map _ (markAddressed_mono riskId) st.risks

theorem applyOps_mono (ops : List SessionOp) (st : ReviewState) :
    List.Forall₂ RiskMono st.risks (applyOps st ops).risks := by
  induction ops generalizing st with
  | nil => exact forall2_riskMono_refl st.risks
  | cons op ops ih =>
    exact forall2_riskMono_trans (applyOp_mono st op) (ih (applyOp st op))

theorem map_eq_self_of {f : RiskPoint → RiskPoint} :
    ∀ l : List RiskPoint, (∀ x ∈ l, f x = x) → l.map f = l
  | [], _ => rfl
  | x :: xs, h => by
    simp only [List.map_cons, h x (List.mem_cons_self x xs)]
    rw [map_eq_self_of xs (fun y hy => h y (List.mem_cons_of_mem x hy))]

/-- A matched initial segment followed by the rest reassembles the string. -/
theorem startsWith_append_drop :
    ∀ {pat s : List Char}, startsWith pat s = true → pat ++ s.drop pat.length = s
  | [], _, _ => rfl
  | _ :: _, [], h => by simp [startsWith] at h
  | p :: ps, c :: cs, h => by
    simp only [startsWith, Bool.and_eq_true, decide_eq_true_eq] at h
    obtain ⟨rfl, h2⟩ := h
    simpa [List.length_cons] using startsWith_append_drop h2

theorem joinSep_cons_cons (sep p : List Char) :
    ∀ ps, ps ≠ [] → joinSep sep (p :: ps) = p ++ sep ++ joinSep sep ps
  | [], h => absurd rfl h
  | _ :: _, _ => rfl

theorem joinSep_cons_head (sep : List Char) (c : Char) (p : List Char) :
    ∀ ps, joinSep sep ((c :: p) :: ps) = c :: joinSep sep (p :: ps)
  | [] => rfl
  | q :: qs => by simp [joinSep]

theorem jsSplitCore_ne_nil (sep s : List Char) : jsSplitCore sep s ≠ [] := by
  unfold jsSplitCore
  split
  · simp
  · split
    · simp
    · split <;> simp

theorem joinSep_jsSplitCore (sep s : List Char) :
    joinSep sep (jsSplitCore sep s) = s := by
  induction s using jsSplitCore.induct sep with
  | case1 x h ih =>
    rw [jsSplitCore, dif_pos h,
      joinSep_cons_cons sep [] _ (jsSplitCore_ne_nil sep _), ih]
    simpa using startsWith_append_drop h.2
  | case2 h _ =>
    rw [jsSplitCore, dif_neg h]
    rfl
  | case3 c rest h hnil _ ih =>
    exact absurd hnil (jsSplitCore_ne_nil sep rest)
  | case4 c rest h p ps hcons _ ih =>
    rw [jsSplitCore, dif_neg h]
    simp only [hcons] at ih ⊢
    rw [joinSep_cons_head, ih]

theorem flatten_map_single (s : List Char) :
    joinSep [] (s.map (fun c => [c])) = s := by
  induction s with
  | nil => rfl
  | cons c cs ih =>
    cases cs with
    | nil => rfl
    | cons d ds =>
      simp only [List.map_cons] at ih ⊢
      rw [joinSep_cons_cons _ _ _ (by simp), ih]
      simp

theorem joinSep_jsSplit (sep s : List Char) : joinSep sep (jsSplit sep s) = s := by
  unfold jsSplit
  split
  · subst sep
    exact flatten_map_single s
  · exact joinSep_jsSplitCore sep s

theorem interleave_texts (risk : RiskPoint) :
    ∀ pieces, ((interleaveRisk risk pieces).map Fragment.text).flatten =
      joinSep risk.originalText pieces
  | [] => rfl
  | [p] => by simp [interleaveRisk, joinSep]
  | p :: q :: ps => by
    rw [joinSep_cons_cons risk.originalText p (q :: ps) (by simp)]
    simp only [interleaveRisk, List.map_cons, List.flatten_cons]
    rw [interleave_texts risk (q :: ps)]
    simp [List.append_assoc]

theorem riskSplitPass_texts (risk : RiskPoint) (part : Fragment) :
    ((riskSplitPass risk part).map Fragment.text).flatten = part.text := by
  unfold riskSplitPass
  split
  · simp
  · simp only []
    split
    · rw [interleave_texts, joinSep_jsSplit]
    · simp

theorem pass_texts (risk : RiskPoint) :
    ∀ parts : List Fragment,
      ((parts.flatMap (riskSplitPass risk)).map Fragment.text).flatten =
        (parts.map Fragment.text).flatten
  | [] => rfl
  | part :: parts => by
    simp only [List.flatMap_cons, List.map_append, List.flatten_append,
      List.map_cons, List.flatten_cons, riskSplitPass_texts, pass_texts risk parts]

theorem foldl_pass_texts (risks : List RiskPoint) :
    ∀ parts : List Fragment,
      (((risks.foldl (fun parts risk => parts.flatMap (riskSplitPass risk))
        parts)).map Fragment.text).flatten = (parts.map Fragment.text).flatten := by
  induction risks with
  | nil => intro parts; rfl
  | cons r rs ih =>
    intro parts
    rw [List.foldl_cons, ih, pass_texts]

/-- For a nonempty separator, splitting yields one piece more than the number
of leftmost non-overlapping occurrences. -/
theorem jsSplitCore_length (sep : List Char) (hne : sep ≠ []) (s : List Char) :
    (jsSplitCore sep s).length = countOcc sep s + 1 := by
  induction s using jsSplitCore.induct sep with
  | case1 x h ih =>
    rw [jsSplitCore, dif_pos h, countOcc, dif_pos h]
    simp [ih]
  | case2 h _ =>
    rw [jsSplitCore, dif_neg h, countOcc, dif_neg h]
    rfl
  | case3 c rest h hnil _ ih =>
    exact absurd hnil (jsSplitCore_ne_nil sep rest)
  | case4 c rest h p ps hcons _ ih =>
    rw [jsSplitCore, dif_neg h, countOcc, dif_neg h]
    rw [hcons] at ih
    simp only [hcons, List.length_cons] at ih ⊢
    omega

theorem interleave_countP (risk : RiskPoint) :
    ∀ pieces, (interleaveRisk risk pieces).countP
      (fun p => p.riskId = some risk.id) = pieces.length - 1
  | [] => rfl
  | [p] => by simp [interleaveRisk, List.countP_cons]
  | p :: q :: ps => by
    have ih := interleave_countP risk (q :: ps)
    simp only [interleaveRisk, List.countP_cons] at ih ⊢
    simp only [List.length_cons] at ih ⊢
    simp [ih]

theorem riskSplitPass_countP (r : RiskPoint) (hne : r.originalText ≠ [])
    (part : Fragment) :
    (riskSplitPass r part).countP (fun p => p.riskId = some r.id) =
      (if part.riskId = none then countOcc r.originalText part.text
       else if part.riskId = some r.id then 1 else 0) := by
  unfold riskSplitPass
  by_cases hp : part.riskId.isSome
  · rw [if_pos hp]
    obtain ⟨j, hj⟩ := Option.isSome_iff_exists.mp hp
    rw [hj]
    simp [List.countP_cons, hj]
  · rw [if_neg hp]
    have hnone : part.riskId = none := Option.not_isSome_iff_eq_none.mp hp
    rw [if_pos hnone]
    simp only []
    have hsplit : jsSplit r.originalText part.text =
        jsSplitCore r.originalText part.text := by
      unfold jsSplit
      rw [if_neg hne]
    by_cases hlen : (jsSplit r.originalText part.text).length > 1
    · rw [if_pos hlen, interleave_countP, hsplit, jsSplitCore_length _ hne]
      omega
    · rw [if_neg hlen]
      rw [hsplit, jsSplitCore_length _ hne] at hlen
      have hocc : countOcc r.originalText part.text = 0 := by omega
      simp [List.countP_cons, hnone, hocc]

theorem flatMap_pass_countP (r : RiskPoint) (hne : r.originalText ≠ []) :
    ∀ parts : List Fragment,
      (parts.flatMap (riskSplitPass r)).countP (fun p => p.riskId = some r.id) =
        (parts.map (fun p => if p.riskId = none then countOcc r.originalText p.text
          else if p.riskId = some r.id then 1 else 0)).sum
  | [] => rfl
  | part :: parts => by
    rw [List.flatMap_cons, List.countP_append, riskSplitPass_countP r hne part,
      List.map_cons, List.sum_cons, flatMap_pass_countP r hne parts]

theorem mem_interleave (risk : RiskPoint) :
    ∀ pieces (p : Fragment), p ∈ interleaveRisk risk pieces →
      p.riskId = none ∨ p = ⟨risk.originalText, some risk.id, some risk.level⟩
  | [], p, h => absurd h (List.not_mem_nil p)
  | [q], p, h => by
    simp only [interleaveRisk, List.mem_singleton] at h
    subst h
    exact Or.inl rfl
  | q :: q2 :: qs, p, h => by
    simp only [interleaveRisk, List.mem_cons] at h
    rcases h with rfl | rfl | h
    · exact Or.inl rfl
    · exact Or.inr rfl
    · exact mem_interleave risk (q2 :: qs) p h

/-- A replacement with no active substitution pattern passes through
`GetSubstitution` verbatim. -/
theorem substDollar_noPat (matched before after : List Char) :
    ∀ repl, hasSubstPat repl = false →
      substDollar matched before after repl = repl
  | [], _ => by rw [substDollar]
  | [c], _ => by rw [substDollar]
  | c1 :: c2 :: rest, h => by
    simp only [hasSubstPat] at h
    by_cases h1 : c1 = chDollar
    · by_cases hd : c2 = chDollar ∨ c2 = chAmp ∨ c2 = chBackquote ∨ c2 = chQuote
      · rw [if_pos ⟨h1, hd⟩] at h
        cases h
      · rw [if_neg (by tauto)] at h
        push_neg at hd
        obtain ⟨hd1, hd2, hd3, hd4⟩ := hd
        rw [substDollar, if_pos h1, if_neg hd1, if_neg hd2, if_neg hd3, if_neg hd4]
        rw [substDollar_noPat matched before after (c2 :: rest) h]
    · rw [if_neg (by tauto)] at h
      rw [substDollar, if_neg h1]
      rw [substDollar_noPat matched before after (c2 :: rest) h]

theorem firstMatchIdx_some :
    ∀ {s pat : List Char} {i : Nat}, firstMatchIdx pat s = some i →
      startsWith pat (s.drop i) = true ∧
        ∀ j, j < i → startsWith pat (s.drop j) = false := by
  intro s
  induction s with
  | nil =>
    intro pat i h
    rw [firstMatchIdx] at h
    split_ifs at h with hsw
    rcases h with ⟨rfl⟩
    exact ⟨hsw, fun j hj => absurd hj (by omega)⟩
  | cons c rest ih =>
    intro pat i h
    rw [firstMatchIdx] at h
    split_ifs at h with hsw
    · rcases h with ⟨rfl⟩
      exact ⟨hsw, fun j hj => absurd hj (by omega)⟩
    · rcases Option.map_eq_some'.mp h with ⟨i', hi', rfl⟩
      rcases ih hi' with ⟨h1, h2⟩
      refine ⟨by simpa using h1, fun j hj => ?_⟩
      cases j with
      | zero =>
        simp only [List.drop_zero]
        exact Bool.eq_false_iff.mpr hsw
      | succ j =>
        have hji : j < i' := by omega
        simpa using h2 j hji

theorem digitChar_toNat {d : Nat} (hd : d < 10) : (digitChar d).toNat = 48 + d := by
  interval_cases d <;> rfl

theorem readDec_append_digit (xs : List Char) (c : Char) :
    readDec (xs ++ [c]) = 10 * readDec xs + (c.toNat - 48) := by
  unfold readDec
  rw [List.foldl_append]
  rfl

/-- Decimal rendering round-trips through `readDec`, so it is injective. -/
theorem readDec_natToChars (n : Nat) : readDec (natToChars n) = n := by
  induction n using Nat.strong_induction_on with
  | _ n ih =>
    by_cases h : n < 10
    · rw [natToChars, dif_pos h]
      show 10 * 0 + ((digitChar n).toNat - 48) = n
      rw [digitChar_toNat h]
      omega
    · rw [natToChars, dif_neg h]
      have hdiv : n / 10 < n := Nat.div_lt_self (by omega) (by omega)
      have hmod : n % 10 < 10 := Nat.mod_lt n (by omega)
      rw [readDec_append_digit, ih (n / 10) hdiv, digitChar_toNat hmod]
      omega

theorem natToChars_inj {m n : Nat} (h : natToChars m = natToChars n) : m = n := by
  have hm := readDec_natToChars m
  rw [h, readDec_natToChars] at hm
  omega

theorem riskIdChars_inj {i j now : Nat}
    (h : riskIdChars i now = riskIdChars j now) : i = j := by
  unfold riskIdChars at h
  simp only [List.append_assoc] at h
  have h2 := List.append_cancel_left h
  have hlen : (natToChars i).length = (natToChars j).length := by
    have hl := congrArg List.length h2
    simp only [List.length_append] at hl
    omega
  exact natToChars_inj (List.append_inj_left h2 hlen)

theorem mem_mapRisksFrom (now : Nat) :
    ∀ (idx : Nat) (rs : List RawRisk) (p : RiskPoint), p ∈ mapRisksFrom now idx rs →
      p.isAddressed = false ∧ ∃ k, idx ≤ k ∧ p.id = riskIdChars k now
  | idx, [], p, h => absurd h (List.not_mem_nil p)
  | idx, r :: rs, p, h => by
    rcases List.mem_cons.mp h with rfl | h
    · exact ⟨rfl, idx, Nat.le_refl idx, rfl⟩
    · rcases mem_mapRisksFrom now (idx + 1) rs p h with ⟨h1, k, hk, hid⟩
      exact ⟨h1, k, by omega, hid⟩

theorem mapRisksFrom_pairwise (now : Nat) :
    ∀ (idx : Nat) (rs : List RawRisk),
      (mapRisksFrom now idx rs).Pairwise (fun a b => a.id ≠ b.id)
  | _, [] => List.Pairwise.nil
  | idx, r :: rs => by
    refine List.Pairwise.cons ?_ (mapRisksFrom_pairwise now (idx + 1) rs)
    intro q hq heq
    rcases mem_mapRisksFrom now (idx + 1) rs q hq with ⟨_, k, hk, hid⟩
    rw [hid] at heq
    have heq2 : riskIdChars idx now = riskIdChars k now := heq
    have := riskIdChars_inj heq2
    omega

set_option maxRecDepth 10000

unseal jsSplitCore substDollar natToChars countOcc hasSubstPat

/-! ### Claim theorems -/

/-- C1 (amended): a failed Risk Analyzer call is caught inside
`analyzeContractRisks`, which returns the empty list, so `handleAnalyze`
replaces the existing finding list with `[]`, leaves the document text and
selection unchanged, raises no failure alert, and the resulting outcome is
identical to that of a successful analysis that found no risks. -/
theorem analyzeFailure_indistinguishable (st : ReviewState) (now : Nat) :
    (requestAnalysis st now (.error ())).1.currentText = st.currentText ∧
    (requestAnalysis st now (.error ())).1.selectedRiskId = st.selectedRiskId ∧
    (requestAnalysis st now (.error ())).1.risks = [] ∧
    (requestAnalysis st now (.error ())).2 = false ∧
    requestAnalysis st now (.error ()) = requestAnalysis st now (.ok []) :=
  ⟨rfl, rfl, rfl, rfl, rfl⟩



/-- C1 is false as stated: at a state holding one existing finding, a failed
analyzer call does not leave the finding list untouched (it becomes empty),
and the result is exactly the result of a successful analysis that found no
risks, so no distinguishable failure indicator exists. -/
theorem analyzeFailure_cex :
    (requestAnalysis cexAnalyzeState 0 (.error ())).1.risks ≠ cexAnalyzeState.risks ∧
    (requestAnalysis cexAnalyzeState 0 (.error ())).2 = false ∧
    requestAnalysis cexAnalyzeState 0 (.error ()) =
      requestAnalysis cexAnalyzeState 0 (.ok []) :=
  ⟨by decide, rfl, rfl⟩

/-- C2 (amended): along every sequence of `acceptFinding`/`ignoreFinding`
calls, the finding list keeps its length and ids positionally, and each
finding's resolved flag is monotone — it goes from `false` to `true` at most
once and is never reverted.  Moreover `ignoreFinding` on an id whose findings
are all already resolved leaves the finding list and the document text
unchanged (it does, however, clear the selection, and `acceptFinding` on a
resolved id can still edit the text — see the counterexample). -/
theorem resolvedFlag_monotone (ops : List SessionOp) (st : ReviewState)
    (riskId : List Char) :
    List.Forall₂ RiskMono st.risks (applyOps st ops).risks ∧
    ((∀ r ∈ st.risks, r.id = riskId → r.isAddressed = true) →
      (handleIgnoreRisk st riskId).risks = st.risks ∧
      (handleIgnoreRisk st riskId).currentText = st.currentText) := by
  refine ⟨applyOps_mono ops st, fun h => ⟨?_, rfl⟩⟩
  show st.risks.map _ = st.risks
  apply map_eq_self_of
  intro x hx
  by_cases hid : x.id = riskId
  · have := h x hx hid
    cases x
    simp_all
  · simp [hid]



/-- C2 is false as stated: after one `acceptFinding` on id `r1` the finding is
resolved, yet a second `acceptFinding` on the same, already-resolved id runs
the text replacement again and changes the document from "ba" to "bb", so the
state is not left unchanged. -/
theorem acceptTwice_cex :
    (∀ r ∈ (acceptFinding cexTwiceState ("r1".toList)).risks, r.isAddressed = true) ∧
    acceptFinding (acceptFinding cexTwiceState ("r1".toList)) ("r1".toList) ≠
      acceptFinding cexTwiceState ("r1".toList) := by
  decide


theorem resolvedFlag_monotone_witness :
    List.Forall₂ RiskMono witMonoState.risks
      (applyOps witMonoState [SessionOp.accept ("a1".toList),
        SessionOp.ignore ("a2".toList)]).risks ∧
    ((∀ r ∈ witMonoState.risks, r.id = "a2".toList → r.isAddressed = true) →
      (handleIgnoreRisk witMonoState ("a2".toList)).risks = witMonoState.risks ∧
      (handleIgnoreRisk witMonoState ("a2".toList)).currentText =
        witMonoState.currentText) :=
  resolvedFlag_monotone [SessionOp.accept ("a1".toList),
    SessionOp.ignore ("a2".toList)] witMonoState ("a2".toList)

/-- C6: when the finding's original text does not occur in the current
document, `handleAcceptRisk` leaves the document text unchanged while still
marking the finding resolved — a benign no-op, not an error. -/
theorem acceptRisk_absent_noop (st : ReviewState) (risk : RiskPoint)
    (h : firstMatchIdx risk.originalText st.currentText = none) :
    (handleAcceptRisk st risk).currentText = st.currentText ∧
    ∀ r ∈ (handleAcceptRisk st risk).risks, r.id = risk.id → r.isAddressed = true := by
  constructor
  · simp [handleAcceptRisk, jsReplace, h]
  · intro r hr hid
    simp only [handleAcceptRisk, List.mem_map] at hr
    obtain ⟨x, _, rfl⟩ := hr
    by_cases hxe : x.id = risk.id
    · simp [hxe]
    · simp only [if_neg hxe] at hid ⊢
      exact absurd hid hxe



theorem acceptRisk_absent_noop_witness :
    (handleAcceptRisk witAbsentState witAbsentRisk).currentText =
      witAbsentState.currentText ∧
    ∀ r ∈ (handleAcceptRisk witAbsentState witAbsentRisk).risks,
      r.id = witAbsentRisk.id → r.isAddressed = true :=
  acceptRisk_absent_noop witAbsentState witAbsentRisk (by decide)

/-- C7: `navigateRisk` is a no-op when nothing is selected, and otherwise,
when the selected id sits at position `i` among the unresolved findings, it
moves the selection to the unresolved finding at the wrapped next/previous
position in list order (last wraps to first on `next`, first to last on
`prev`), changing nothing else. -/
theorem navigateRisk_spec (st : ReviewState) (direction : NavDirection) :
    (st.selectedRiskId = none → navigateRisk st direction = st) ∧
    (∀ sel i, st.selectedRiskId = some sel →
      (st.risks.filter (fun r => !r.isAddressed)).findIdx? (fun r => r.id = sel) =
        some i →
      navigateRisk st direction =
        { st with
            selectedRiskId := some
              (((st.risks.filter (fun r => !r.isAddressed)).getD
                (wrapIndex direction i (st.risks.filter (fun r => !r.isAddressed)).length)
                defaultRisk).id) }) := by
  constructor
  · intro h
    simp [navigateRisk, h]
  · intro sel i hsel hfind
    have hi : i < (st.risks.filter (fun r => !r.isAddressed)).length := by
      rcases List.findIdx?_eq_some_iff_getElem.mp hfind with ⟨h, _⟩
      exact h
    set l := st.risks.filter (fun r => !r.isAddressed) with hl
    have hw : wrapIndex direction i l.length < l.length := by
      cases direction <;> simp [wrapIndex] <;> split <;> omega
    have hget : l[wrapIndex direction i l.length]? = some (l.getD (wrapIndex direction i l.length) defaultRisk) := by
      rw [List.getD_eq_getElem?_getD, List.getElem?_eq_getElem hw]
      rfl
    cases direction with
    | next =>
      by_cases hc : i + 1 ≥ l.length
      · have h1 : ¬ ((i : Int) + 1 ≥ (l.length : Int)) → False := by omega
        have hwv : wrapIndex NavDirection.next i l.length = 0 := by
          simp [wrapIndex, hc]
        rw [hwv] at hget
        simp only [navigateRisk, hsel, ← hl, hfind]
        rw [if_pos (by omega : ((i : Int) + 1 ≥ (l.length : Int)))]
        rw [if_neg (by omega : ¬ ((0 : Int) < 0))]
        simp only [Int.toNat_zero, hget, hwv]
      · have hwv : wrapIndex NavDirection.next i l.length = i + 1 := by
          simp [wrapIndex, hc]
        rw [hwv] at hget
        simp only [navigateRisk, hsel, ← hl, hfind]
        rw [if_neg (by omega : ¬ ((i : Int) + 1 ≥ (l.length : Int)))]
        rw [if_neg (by omega : ¬ ((i : Int) + 1 < 0))]
        have ht : ((i : Int) + 1).toNat = i + 1 := by omega
        rw [ht, hget, hwv]
    | prev =>
      by_cases hc : i = 0
      · have hwv : wrapIndex NavDirection.prev i l.length = l.length - 1 := by
          simp [wrapIndex, hc]
        rw [hwv] at hget
        simp only [navigateRisk, hsel, ← hl, hfind]
        rw [if_neg (by omega : ¬ ((i : Int) - 1 ≥ (l.length : Int)))]
        rw [if_pos (by omega : ((i : Int) - 1 < 0))]
        have ht : ((l.length : Int) - 1).toNat = l.length - 1 := by omega
        rw [ht, hget, hwv]
      · have hwv : wrapIndex NavDirection.prev i l.length = i - 1 := by
          simp [wrapIndex, hc]
        rw [hwv] at hget
        simp only [navigateRisk, hsel, ← hl, hfind]
        rw [if_neg (by omega : ¬ ((i : Int) - 1 ≥ (l.length : Int)))]
        rw [if_neg (by omega : ¬ ((i : Int) - 1 < 0))]
        have ht : ((i : Int) - 1).toNat = i - 1 := by omega
        rw [ht, hget, hwv]

/-- C10: `navigateRisk` is also a no-op when the selected id belongs to no
unresolved finding (for instance when the selected finding is itself
resolved): the whole state, selection included, is unchanged. -/
theorem navigateRisk_staleSelection_noop (st : ReviewState)
    (direction : NavDirection) (sel : List Char)
    (hsel : st.selectedRiskId = some sel)
    (h : ∀ r ∈ st.risks, r.isAddressed = false → r.id ≠ sel) :
    navigateRisk st direction = st := by
  have hfind : (st.risks.filter (fun r => !r.isAddressed)).findIdx?
      (fun r => r.id = sel) = none := by
    rw [List.findIdx?_eq_none_iff]
    intro x hx
    rw [List.mem_filter] at hx
    have hxa : x.isAddressed = false := by
      have := hx.2
      simpa using this
    simpa using h x hx.1 hxa
  simp [navigateRisk, hsel, hfind]

/-- A fragment already attributed to a finding is never subdivided by a later
finding's splitting pass. -/
theorem riskSplitPass_attributed (r : RiskPoint) (p : Fragment)
    (hp : p.riskId.isSome = true) : riskSplitPass r p = [p] := by
  unfold riskSplitPass
  rw [if_pos hp]

theorem mem_foldl_pass (p : Fragment) (hp : p.riskId.isSome = true) :
    ∀ (rs : List RiskPoint) (parts : List Fragment), p ∈ parts →
      p ∈ rs.foldl (fun parts risk => parts.flatMap (riskSplitPass risk)) parts := by
  intro rs
  induction rs with
  | nil => intro parts h; exact h
  | cons r rs ih =>
    intro parts h
    rw [List.foldl_cons]
    exact ih _ (List.mem_flatMap.mpr
      ⟨p, h, by rw [riskSplitPass_attributed r p hp]; exact List.mem_singleton.mpr rfl⟩)

/-- C4: the fragments produced by `renderDocumentContent`, concatenated in
order, reproduce the current document text exactly, for every state. -/
theorem renderSpans_partition (st : ReviewState) :
    ((renderDocumentParts st).map Fragment.text).flatten = st.currentText := by
  unfold renderDocumentParts
  rw [foldl_pass_texts]
  simp

/-- C5: findings are processed in list order and a splitting pass keeps every
already-attributed fragment whole, so a span carved out for an earlier-listed
finding survives, unsplit, the passes of any findings appended after it. -/
theorem renderSpans_priority (st : ReviewState) (more : List RiskPoint)
    (r : RiskPoint) (p : Fragment) (hp : p.riskId.isSome = true) :
    riskSplitPass r p = [p] ∧
    (p ∈ renderDocumentParts st →
      p ∈ renderDocumentParts { st with risks := st.risks ++ more }) := by
  refine ⟨riskSplitPass_attributed r p hp, fun h => ?_⟩
  unfold renderDocumentParts at h ⊢
  simp only [List.filter_append, List.foldl_append]
  exact mem_foldl_pass p hp _ _ h

theorem renderSpans_priority_witness :
    riskSplitPass witOverlapB witOverlapFrag = [witOverlapFrag] ∧
    witOverlapFrag ∈ renderDocumentParts
      { witOverlapState with risks := witOverlapState.risks ++ [witOverlapB] } := by
  have h := renderSpans_priority witOverlapState [witOverlapB] witOverlapB
    witOverlapFrag (by decide)
  exact ⟨h.1, h.2 (by decide)⟩

theorem navigateRisk_spec_witness :
    navigateRisk witNavState NavDirection.next =
      { witNavState with selectedRiskId := some ("n1".toList) } := by
  have h := (navigateRisk_spec witNavState NavDirection.next).2 ("n2".toList) 1
    rfl (by decide)
  rw [h]
  decide

theorem navigateRisk_staleSelection_noop_witness :
    navigateRisk witStaleState NavDirection.next = witStaleState :=
  navigateRisk_staleSelection_noop witStaleState NavDirection.next ("s1".toList)
    rfl (by decide)

/-- C9: a splitting pass of `renderDocumentContent` marks, in the plain
fragments, exactly as many spans for a finding as its original text has
leftmost non-overlapping occurrences — every occurrence, not only the first
(which is all `handleAcceptRisk` later replaces) — and each newly marked span
carries the finding's original text, id and severity; in particular, for a
session whose only finding is unresolved, the rendered document carries one
highlighted span per occurrence of that finding's original text. -/
theorem renderSpans_all_occurrences (r : RiskPoint) (parts : List Fragment)
    (hne : r.originalText ≠ []) :
    (parts.flatMap (riskSplitPass r)).countP (fun p => p.riskId = some r.id) =
      (parts.map (fun p => if p.riskId = none then countOcc r.originalText p.text
        else if p.riskId = some r.id then 1 else 0)).sum ∧
    (∀ p ∈ parts.flatMap (riskSplitPass r), p.riskId = some r.id →
      p ∈ parts ∨ (p.text = r.originalText ∧ p.level = some r.level)) ∧
    (∀ st : ReviewState, st.risks = [r] → r.isAddressed = false →
      (renderDocumentParts st).countP (fun p => p.riskId = some r.id) =
        countOcc r.originalText st.currentText) := by
  refine ⟨flatMap_pass_countP r hne parts, ?_, ?_⟩
  case refine_2 =>
    intro st hrisks hres
    unfold renderDocumentParts
    rw [hrisks]
    have hfil : List.filter (fun r => !r.isAddressed) [r] = [r] := by
      simp [List.filter, hres]
    rw [hfil, List.foldl_cons, List.foldl_nil,
      flatMap_pass_countP r hne [⟨st.currentText, none, none⟩]]
    simp
  intro p hp hpid
  rcases List.mem_flatMap.mp hp with ⟨q, hq, hpq⟩
  by_cases hqs : q.riskId.isSome
  · rw [riskSplitPass_attributed r q hqs] at hpq
    rw [List.mem_singleton] at hpq
    subst hpq
    exact Or.inl hq
  · unfold riskSplitPass at hpq
    rw [if_neg hqs] at hpq
    simp only [] at hpq
    split at hpq
    · rcases mem_interleave r _ p hpq with hnone | hfrag
      · rw [hpid] at hnone
        cases hnone
      · subst hfrag
        exact Or.inr ⟨rfl, rfl⟩
    · rw [List.mem_singleton] at hpq
      subst hpq
      exact Or.inl hq

theorem renderSpans_all_occurrences_witness :
    ([witFeeFrag].flatMap (riskSplitPass witFeeRisk)).countP
        (fun p => p.riskId = some witFeeRisk.id) =
      ([witFeeFrag].map (fun p =>
        if p.riskId = none then countOcc witFeeRisk.originalText p.text
        else if p.riskId = some witFeeRisk.id then 1 else 0)).sum ∧
    countOcc witFeeRisk.originalText witFeeFrag.text = 2 :=
  ⟨(renderSpans_all_occurrences witFeeRisk [witFeeFrag] (by decide)).1, by decide⟩

/-- C3 (amended): when the finding's original text occurs in the document and
the replacement text contains no active ECMAScript substitution pattern (a
dollar followed by a dollar, ampersand, backquote or quote), accepting the
finding splices the replacement over exactly the leftmost occurrence — the
text before position `i` and the text after the matched substring, every other
occurrence included, are byte-for-byte unchanged.  (With an active `$`-pattern
JavaScript `replace` expands it instead — see the counterexample.) -/
theorem acceptRisk_first_occurrence (st : ReviewState) (risk : RiskPoint)
    (i : Nat)
    (hocc : firstMatchIdx risk.originalText st.currentText = some i)
    (hrepl : hasSubstPat risk.suggestedText = false) :
    (handleAcceptRisk st risk).currentText =
      st.currentText.take i ++ risk.suggestedText ++
        st.currentText.drop (i + risk.originalText.length) ∧
    startsWith risk.originalText (st.currentText.drop i) = true ∧
    ∀ j, j < i → startsWith risk.originalText (st.currentText.drop j) = false := by
  have hfm := firstMatchIdx_some hocc
  refine ⟨?_, hfm.1, hfm.2⟩
  show jsReplace st.currentText risk.originalText risk.suggestedText = _
  unfold jsReplace
  rw [hocc]
  show st.currentText.take i ++
      substDollar risk.originalText (st.currentText.take i)
        (st.currentText.drop (i + risk.originalText.length)) risk.suggestedText ++
      st.currentText.drop (i + risk.originalText.length) = _
  rw [substDollar_noPat _ _ _ _ hrepl]

/-- C3 is false as stated: with document "ab", original "b" and replacement
"$&$&", JavaScript `replace` expands each `$&` to the matched text, producing
"abb" rather than the claimed splice "a" ++ "$&$&". -/
theorem acceptDollar_cex :
    firstMatchIdx cexDollarRisk.originalText cexDollarState.currentText = some 1 ∧
    (handleAcceptRisk cexDollarState cexDollarRisk).currentText = "abb".toList ∧
    (handleAcceptRisk cexDollarState cexDollarRisk).currentText ≠
      cexDollarState.currentText.take 1 ++ cexDollarRisk.suggestedText ++
        cexDollarState.currentText.drop (1 + cexDollarRisk.originalText.length) := by
  refine ⟨by decide, by decide, by decide⟩

theorem acceptRisk_first_occurrence_witness :
    (handleAcceptRisk witFeeState witFeeRisk).currentText =
      "Fee: $200. Late fee: $100.".toList := by
  have h := acceptRisk_first_occurrence witFeeState witFeeRisk 5
    (by decide) (by decide)
  rw [h.1]
  decide

/-- C8: the finding list a successful analysis installs has every finding
unresolved, and the generated ids `risk-<index>-<now>` are pairwise distinct
because the decimal index renders injectively. -/
theorem analyzeRisks_fresh_unique (st : ReviewState) (now : Nat)
    (rawRisks : List RawRisk) :
    (∀ p ∈ (requestAnalysis st now (.ok rawRisks)).1.risks,
      p.isAddressed = false) ∧
    ((requestAnalysis st now (.ok rawRisks)).1.risks).Pairwise
      (fun a b => a.id ≠ b.id) := by
  constructor
  · intro p hp
    exact (mem_mapRisksFrom now 0 rawRisks p hp).1
  · exact mapRisksFrom_pairwise now 0 rawRisks

theorem analyzeRisks_fresh_unique_witness :
    (∀ p ∈ (requestAnalysis witRawState 7 (.ok [witRawA, witRawB])).1.risks,
      p.isAddressed = false) ∧
    ((requestAnalysis witRawState 7 (.ok [witRawA, witRawB])).1.risks).Pairwise
      (fun a b => a.id ≠ b.id) :=
  analyzeRisks_fresh_unique witRawState 7 [witRawA, witRawB]

end LegalEagle
